import Mathlib

/-
Verification of the buffer-cache core (kernel/bio.c) against its design
specification.  The cache state and every operation (binit, bget, bread,
bwrite, brelse, bpin, bunpin) are shallowly embedded below, translated
directly from the C source.  Buckets are lists of slot indices in the
scan order of the intrusive linked lists; the global tick counter and
the set of sleep-locks held by the (single modelled) caller are carried
in the state.  Shard-lock and sleep-lock operations additionally emit an
event trace so that temporal claims about lock holding can be settled.
-/

namespace BufCache

/-- A buffer slot, translated from struct buf.  The header buf.h is not
part of the tree; its fields are modelled from the spec data model:
block identity (device id, block number), valid flag, reference count as
a nonnegative integer, last-release tick, and an abstract payload. -/
structure Buf where
  dev : Nat
  blockno : Nat
  valid : Bool
  refcnt : Nat
  lastuse : Nat
  data : Nat
deriving DecidableEq

/-- The all-zero slot, the BSS initial value of every element of bcache.buf. -/
def zeroBuf : Buf := ⟨0, 0, false, 0, 0, 0⟩

/-- Which return branch of bget produced the slot. -/
inductive Path where
  | hit
  | localEvict
  | steal
deriving DecidableEq

/-- Lock events emitted by the operations, used for the temporal claims:
acquire/release of the shard spinlock lks[i], and acquire/release of a
slot's sleep lock. -/
inductive Ev where
  | acqShard : Nat → Ev
  | relShard : Nat → Ev
  | acqSleep : Nat → Ev
  | relSleep : Nat → Ev
deriving DecidableEq

/-- The bcache state: number of buckets (NBUCKET), the slot array, the
per-bucket membership lists (slot indices, in linked-list scan order),
the kernel tick counter read by bget and brelse, and the slot sleep
locks currently held by the modelled caller. -/
structure BCache where
  nbucket : Nat
  bufs : List Buf
  buckets : List (List Nat)
  ticks : Nat
  held : List Nat
deriving DecidableEq

/-- Read slot i of the slot array. -/
def getBuf (c : BCache) (i : Nat) : Buf := c.bufs.getD i zeroBuf

/-- Overwrite slot i of the slot array with f applied to it. -/
def updateBuf (c : BCache) (i : Nat) (f : Buf → Buf) : BCache :=
  { c with bufs := c.bufs.set i (f (getBuf c i)) }

/-- Replace the membership list of bucket j. -/
def setBucket (c : BCache) (j : Nat) (l : List Nat) : BCache :=
  { c with buckets := c.buckets.set j l }

/-- Translated from myhash: x % NBUCKET. -/
def myhash (nbucket x : Nat) : Nat := x % nbucket

/-- Translated from bufinit: assign the new identity, clear valid, set
refcnt to 1.  lastuse and the payload are left untouched. -/
def bufinit (b : Buf) (dev blockno : Nat) : Buf :=
  { b with dev := dev, blockno := blockno, valid := false, refcnt := 1 }

/-- Translated from binit: all slots start zeroed (BSS) and are threaded
into bucket 0; each insertion is at the head, so the scan order is the
reverse of the array order. -/
def binit (nbucket nbuf : Nat) : BCache :=
  { nbucket := nbucket
    bufs := List.replicate nbuf zeroBuf
    buckets := (List.range nbucket).map (fun j => if j = 0 then (List.range nbuf).reverse else [])
    ticks := 0
    held := [] }

/-- The hit scan of bget: first slot in bucket scan order whose dev and
blockno match.  The C code compares only the identity fields. -/
def findHit (bufs : List Buf) (dev blockno : Nat) : List Nat → Option Nat
  | [] => none
  | i :: rest =>
    if (bufs.getD i zeroBuf).dev = dev ∧ (bufs.getD i zeroBuf).blockno = blockno
    then some i
    else findHit bufs dev blockno rest

/-- The victim scan of bget: walk the bucket keeping the current minimum
(minticks, initially the global tick counter) and the current victim
(victm, initially none); a slot with refcnt == 0 and lastuse <= minticks
becomes the new victim and lowers minticks to its lastuse. -/
def scanVictim (bufs : List Buf) : List Nat → Nat → Option Nat → Option Nat
  | [], _, victm => victm
  | i :: rest, minticks, victm =>
    if (bufs.getD i zeroBuf).refcnt = 0 ∧ (bufs.getD i zeroBuf).lastuse ≤ minticks
    then scanVictim bufs rest (bufs.getD i zeroBuf).lastuse (some i)
    else scanVictim bufs rest minticks victm

/-- Remove the (first) occurrence of a slot index from a membership
list; this is the pointer splice victm->next->prev = victm->prev etc. -/
def removeSlot (v : Nat) : List Nat → List Nat
  | [] => []
  | i :: rest => if i = v then rest else i :: removeSlot v rest

/-- Result of bget: the new cache state, the returned slot index and the
branch that produced it (none models panic), and the lock-event trace. -/
structure BRes where
  cache : BCache
  ret : Option (Nat × Path)
  evs : List Ev
deriving DecidableEq

/-- State change of the bget hit branch: refcnt++ and the slot's sleep
lock is acquired. -/
def hitApply (c : BCache) (i : Nat) : BCache :=
  let c1 := updateBuf c i (fun b => { b with refcnt := b.refcnt + 1 })
  { c1 with held := i :: c1.held }

/-- State change of the bget local-eviction branch: bufinit the victim
and acquire its sleep lock. -/
def evictApply (c : BCache) (dev blockno v : Nat) : BCache :=
  let c1 := updateBuf c v (fun b => bufinit b dev blockno)
  { c1 with held := v :: c1.held }

/-- State change of the bget steal branch: bufinit the victim, splice it
out of bucket i, push it onto the head of bucket id, acquire its sleep
lock. -/
def stealApply (c : BCache) (dev blockno id i v : Nat) : BCache :=
  let c1 := updateBuf c v (fun b => bufinit b dev blockno)
  let c2 := setBucket c1 i (removeSlot v (c1.buckets.getD i []))
  let c3 := setBucket c2 id (v :: c2.buckets.getD id [])
  { c3 with held := v :: c3.held }

/-- The steal loop of bget (label steal:), iterating over the bucket
indices in order, skipping the target bucket id.  The caller still holds
lks[id] throughout; each iteration acquires lks[i], scans for a victim,
and either releases lks[i] and continues, or splices the victim over to
bucket id and returns.  Falling off the end releases lks[id] and
panics (modelled as ret = none, state unchanged). -/
def stealGo (c : BCache) (dev blockno id : Nat) : List Nat → BRes
  | [] => ⟨c, none, [Ev.relShard id]⟩
  | i :: rest =>
    if i = id then stealGo c dev blockno id rest
    else
      match scanVictim c.bufs (c.buckets.getD i []) c.ticks none with
      | none =>
        let r := stealGo c dev blockno id rest
        ⟨r.cache, r.ret, Ev.acqShard i :: Ev.relShard i :: r.evs⟩
      | some v =>
        ⟨stealApply c dev blockno id i v, some (v, Path.steal),
          [Ev.acqShard i, Ev.relShard i, Ev.relShard id, Ev.acqSleep v]⟩

/-- Translated from bget: hash the block number to a bucket, take that
shard lock, try the hit scan, then the local victim scan, then the
cross-bucket steal loop. -/
def bget (c : BCache) (dev blockno : Nat) : BRes :=
  match findHit c.bufs dev blockno (c.buckets.getD (myhash c.nbucket blockno) []) with
  | some i =>
    ⟨hitApply c i, some (i, Path.hit),
      [Ev.acqShard (myhash c.nbucket blockno), Ev.relShard (myhash c.nbucket blockno),
        Ev.acqSleep i]⟩
  | none =>
    match scanVictim c.bufs (c.buckets.getD (myhash c.nbucket blockno) []) c.ticks none with
    | some v =>
      ⟨evictApply c dev blockno v, some (v, Path.localEvict),
        [Ev.acqShard (myhash c.nbucket blockno), Ev.relShard (myhash c.nbucket blockno),
          Ev.acqSleep v]⟩
    | none =>
      let r := stealGo c dev blockno (myhash c.nbucket blockno) (List.range c.nbucket)
      ⟨r.cache, r.ret, Ev.acqShard (myhash c.nbucket blockno) :: r.evs⟩

/-- Result of bread: new state, returned slot (none models a bget
panic), and whether a device read was performed. -/
structure ReadRes where
  cache : BCache
  ret : Option Nat
  didRead : Bool
deriving DecidableEq

/-- Translated from bread: bget the slot; if it is not valid, read its
payload from the device (disk models virtio_disk_rw with write = 0) and
set valid. -/
def bread (disk : Nat → Nat → Nat) (c : BCache) (dev blockno : Nat) : ReadRes :=
  match (bget c dev blockno).ret with
  | none => ⟨(bget c dev blockno).cache, none, false⟩
  | some (i, _) =>
    if (getBuf (bget c dev blockno).cache i).valid
    then ⟨(bget c dev blockno).cache, some i, false⟩
    else
      ⟨updateBuf (bget c dev blockno).cache i
          (fun b => { b with data := disk b.dev b.blockno, valid := true }),
        some i, true⟩

/-- Translated from bwrite: panic (none) unless the caller holds the
slot's sleep lock; otherwise emit the device write command, returning
the identity and payload handed to virtio_disk_rw with write = 1. -/
def bwrite (c : BCache) (i : Nat) : Option (Nat × Nat × Nat) :=
  if i ∈ c.held then some ((getBuf c i).dev, (getBuf c i).blockno, (getBuf c i).data)
  else none

/-- Result of brelse / an operation that can panic: the new state, the
panic flag, and the lock-event trace. -/
structure OpRes where
  cache : BCache
  panicked : Bool
  evs : List Ev
deriving DecidableEq

/-- Translated from brelse: panic unless the sleep lock is held; release
the sleep lock, then under the shard lock of the slot's bucket decrement
refcnt and, exactly when it reaches zero, stamp lastuse with the current
tick. -/
def brelse (c : BCache) (i : Nat) : OpRes :=
  if i ∈ c.held then
    ⟨updateBuf { c with held := removeSlot i c.held } i (fun b =>
        if b.refcnt - 1 = 0 then { b with refcnt := b.refcnt - 1, lastuse := c.ticks }
        else { b with refcnt := b.refcnt - 1 }),
      false,
      [Ev.relSleep i, Ev.acqShard (myhash c.nbucket (getBuf c i).blockno),
        Ev.relShard (myhash c.nbucket (getBuf c i).blockno)]⟩
  else ⟨c, true, []⟩

/-- Translated from bpin: under the shard lock, refcnt++.  No
holdingsleep check is performed. -/
def bpin (c : BCache) (i : Nat) : BCache × List Ev :=
  let id := myhash c.nbucket (getBuf c i).blockno
  (updateBuf c i (fun b => { b with refcnt := b.refcnt + 1 }), [Ev.acqShard id, Ev.relShard id])

/-- Translated from bunpin: under the shard lock, refcnt--.  No
holdingsleep check and no lastuse update is performed. -/
def bunpin (c : BCache) (i : Nat) : BCache × List Ev :=
  let id := myhash c.nbucket (getBuf c i).blockno
  (updateBuf c i (fun b => { b with refcnt := b.refcnt - 1 }), [Ev.acqShard id, Ev.relShard id])

/-- One step of the shard-lock held-set automaton driven by an event. -/
def stepHeld : Ev → List Nat → List Nat
  | Ev.acqShard i, h => i :: h
  | Ev.relShard i, h => removeSlot i h
  | _, h => h

/-- All intermediate shard-lock held-sets along an event trace, starting
from a given held-set (the state before each event plus the final
state). -/
def heldStates : List Ev → List Nat → List (List Nat)
  | [], h => [h]
  | e :: evs, h => h :: heldStates evs (stepHeld e h)

/-- Every slot index stored in a bucket is a valid index into the slot
array. -/
def wfIndices (c : BCache) : Prop :=
  ∀ l ∈ c.buckets, ∀ i ∈ l, i < c.bufs.length

instance (c : BCache) : Decidable (wfIndices c) := by
  unfold wfIndices; infer_instance

/-- The bucket invariant: there are NBUCKET buckets, bucket members are
valid slot indices, every member of bucket j hashes to j, and no bucket
contains a slot twice. -/
def bucketInv (c : BCache) : Prop :=
  c.buckets.length = c.nbucket ∧ wfIndices c ∧
  ∀ j ∈ List.range c.buckets.length,
    (∀ i ∈ c.buckets.getD j [], myhash c.nbucket (getBuf c i).blockno = j) ∧
    (c.buckets.getD j []).Nodup

instance (c : BCache) : Decidable (bucketInv c) := by
  unfold bucketInv; infer_instance

/-- A two-bucket cache whose only free slot lives in bucket 1; a request
hashing to bucket 0 must go through the steal path. -/
def exSteal : BCache := ⟨2, [⟨0, 1, false, 0, 0, 0⟩], [[], [0]], 0, []⟩

/-- A cache holding slot 0 with identity (1, 0), valid = false and
refcnt = 5, sitting in its home bucket 0. -/
def exHitInvalid : BCache := ⟨2, [⟨1, 0, false, 5, 0, 0⟩], [[0], []], 0, []⟩

/-- A one-slot cache in which the slot is busy (refcnt = 1), so a miss
can find no victim anywhere. -/
def exBusy : BCache := ⟨2, [⟨0, 0, false, 1, 0, 0⟩], [[0], []], 0, []⟩

/-- A two-slot, one-bucket cache at tick 20: slot 0 is held (refcnt = 1,
lastuse = 2), slot 1 is free (lastuse = 5).  Whether slot 0 is let go by
brelse (stamping lastuse = 20) or by bunpin (keeping lastuse = 2)
changes which slot a later eviction selects. -/
def exUnpin : BCache := ⟨1, [⟨0, 0, false, 1, 2, 0⟩, ⟨0, 0, false, 0, 5, 0⟩], [[0, 1]], 20, [0]⟩

/-- A two-bucket, two-slot cache with a free victim in each bucket, used
to exercise the local-eviction path. -/
def exEvict : BCache := ⟨2, [⟨0, 0, false, 0, 7, 0⟩, ⟨0, 2, false, 0, 3, 0⟩], [[0, 1], []], 10, []⟩

/-- getD after set: the written value when reading the written, in-range
index, the old value otherwise. -/
theorem getD_set {α : Type} (d a : α) :
    ∀ (l : List α) (i j : Nat),
      (l.set i a).getD j d = if j = i ∧ i < l.length then a else l.getD j d
  | [], i, j => by simp
  | x :: xs, 0, 0 => by simp
  | x :: xs, 0, j + 1 => by simp
  | x :: xs, i + 1, 0 => by simp
  | x :: xs, i + 1, j + 1 => by
    have h := getD_set d a xs i j
    simp only [List.set_cons_succ, List.getD_cons_succ, List.length_cons,
      Nat.add_lt_add_iff_right, Nat.add_right_cancel_iff]
    exact h

/-- An in-range getD is a member of the list. -/
theorem getD_mem {α : Type} (d : α) :
    ∀ (l : List α) (j : Nat), j < l.length → l.getD j d ∈ l
  | [], j, h => by simp at h
  | x :: xs, 0, _ => by simp
  | x :: xs, j + 1, h => by
    have hm := getD_mem d xs j (Nat.lt_of_succ_lt_succ h)
    rw [List.getD_cons_succ]
    exact List.mem_cons_of_mem x hm

/-- An out-of-range getD is the default. -/
theorem getD_of_le {α : Type} (d : α) :
    ∀ (l : List α) (j : Nat), l.length ≤ j → l.getD j d = d
  | [], j, _ => by simp
  | x :: xs, j + 1, h => by
    have hd := getD_of_le d xs j (Nat.le_of_succ_le_succ h)
    rw [List.getD_cons_succ]
    exact hd

/-- getBuf after updateBuf. -/
theorem getBuf_updateBuf (c : BCache) (i : Nat) (f : Buf → Buf) (j : Nat) :
    getBuf (updateBuf c i f) j =
      if j = i ∧ i < c.bufs.length then f (getBuf c i) else getBuf c j := by
  unfold updateBuf getBuf
  rw [getD_set]

/-- setBucket does not change the slot array. -/
theorem getBuf_setBucket (c : BCache) (j : Nat) (l : List Nat) (i : Nat) :
    getBuf (setBucket c j l) i = getBuf c i := rfl

/-- updateBuf preserves the slot-array length. -/
theorem length_updateBuf (c : BCache) (i : Nat) (f : Buf → Buf) :
    (updateBuf c i f).bufs.length = c.bufs.length := by
  simp [updateBuf]

/-- removeSlot only drops elements. -/
theorem removeSlot_subset (v : Nat) :
    ∀ l, ∀ w ∈ removeSlot v l, w ∈ l
  | [], w, h => by simp [removeSlot] at h
  | i :: rest, w, h => by
    by_cases hc : i = v
    · simp [removeSlot, hc] at h
      simp [h]
    · simp [removeSlot, hc] at h
      rcases h with h | h
      · simp [h]
      · simp [removeSlot_subset v rest w h]

/-- removeSlot yields a sublist. -/
theorem removeSlot_sublist (v : Nat) :
    ∀ l, List.Sublist (removeSlot v l) l
  | [] => List.Sublist.refl []
  | i :: rest => by
    by_cases hc : i = v
    · rw [removeSlot, if_pos hc]
      exact List.Sublist.cons i (List.Sublist.refl rest)
    · rw [removeSlot, if_neg hc]
      exact List.Sublist.cons₂ i (removeSlot_sublist v rest)

/-- removeSlot preserves Nodup. -/
theorem removeSlot_nodup (v : Nat) (l : List Nat) (h : l.Nodup) :
    (removeSlot v l).Nodup :=
  (removeSlot_sublist v l).nodup h

/-- On a duplicate-free list, removeSlot removes the element for good. -/
theorem not_mem_removeSlot (v : Nat) :
    ∀ l, l.Nodup → v ∉ removeSlot v l
  | [], _, h => by simp [removeSlot] at h
  | i :: rest, hn, h => by
    rcases List.nodup_cons.mp hn with ⟨hni, hnr⟩
    by_cases hc : i = v
    · rw [removeSlot, if_pos hc] at h
      exact hni (hc ▸ h)
    · rw [removeSlot, if_neg hc] at h
      rcases List.mem_cons.mp h with h | h
      · exact hc h.symm
      · exact not_mem_removeSlot v rest hnr h

/-- A successful hit scan returns a member with matching identity. -/
theorem findHit_some (bufs : List Buf) (dev bn : Nat) :
    ∀ order i, findHit bufs dev bn order = some i →
      i ∈ order ∧ (bufs.getD i zeroBuf).dev = dev ∧ (bufs.getD i zeroBuf).blockno = bn
  | [], i, h => by simp [findHit] at h
  | j :: rest, i, h => by
    by_cases hc : (bufs.getD j zeroBuf).dev = dev ∧ (bufs.getD j zeroBuf).blockno = bn
    · rw [findHit, if_pos hc] at h
      cases h
      exact ⟨by simp, hc⟩
    · rw [findHit, if_neg hc] at h
      rcases findHit_some bufs dev bn rest i h with ⟨hm, hd, hb⟩
      exact ⟨by simp [hm], hd, hb⟩

/-- The hit scan fails exactly when no member matches the identity. -/
theorem findHit_eq_none (bufs : List Buf) (dev bn : Nat) :
    ∀ order, findHit bufs dev bn order = none ↔
      ∀ i ∈ order, ¬((bufs.getD i zeroBuf).dev = dev ∧ (bufs.getD i zeroBuf).blockno = bn)
  | [] => by simp [findHit]
  | j :: rest => by
    by_cases hc : (bufs.getD j zeroBuf).dev = dev ∧ (bufs.getD j zeroBuf).blockno = bn
    · rw [findHit, if_pos hc]
      simp only [List.mem_cons]
      constructor
      · intro h; exact absurd h (by simp)
      · intro h; exact absurd hc (h j (Or.inl rfl))
    · rw [findHit, if_neg hc]
      rw [findHit_eq_none bufs dev bn rest]
      constructor
      · intro h i hi
        rcases List.mem_cons.mp hi with hi | hi
        · exact hi ▸ hc
        · exact h i hi
      · intro h i hi
        exact h i (List.mem_cons_of_mem j hi)

/-- If every scanned slot is busy, the victim scan changes nothing. -/
theorem scanVictim_busy (bufs : List Buf) :
    ∀ order mt vc, (∀ i ∈ order, (bufs.getD i zeroBuf).refcnt ≠ 0) →
      scanVictim bufs order mt vc = vc
  | [], mt, vc, _ => rfl
  | i :: rest, mt, vc, h => by
    have hi : (bufs.getD i zeroBuf).refcnt ≠ 0 := h i (by simp)
    rw [scanVictim, if_neg (fun hcc => hi hcc.1)]
    exact scanVictim_busy bufs rest mt vc (fun j hj => h j (List.mem_cons_of_mem i hj))

/-- A victim produced by the scan is either the incoming candidate or a
free member of the scanned list. -/
theorem scanVictim_some (bufs : List Buf) :
    ∀ order mt vc v, scanVictim bufs order mt vc = some v →
      vc = some v ∨ (v ∈ order ∧ (bufs.getD v zeroBuf).refcnt = 0)
  | [], mt, vc, v, h => Or.inl h
  | i :: rest, mt, vc, v, h => by
    by_cases hc : (bufs.getD i zeroBuf).refcnt = 0 ∧ (bufs.getD i zeroBuf).lastuse ≤ mt
    · rw [scanVictim, if_pos hc] at h
      rcases scanVictim_some bufs rest (bufs.getD i zeroBuf).lastuse (some i) v h with h1 | h1
      · cases h1
        exact Or.inr ⟨by simp, hc.1⟩
      · exact Or.inr ⟨by simp [h1.1], h1.2⟩
    · rw [scanVictim, if_neg hc] at h
      rcases scanVictim_some bufs rest mt vc v h with h1 | h1
      · exact Or.inl h1
      · exact Or.inr ⟨by simp [h1.1], h1.2⟩

/-- Continuing the victim scan from a free candidate whose lastuse is
the current minimum yields a free victim whose lastuse is minimal among
the candidate and all free members of the remainder. -/
theorem scanVictim_min_go (bufs : List Buf) :
    ∀ (order : List Nat) (v0 : Nat), (bufs.getD v0 zeroBuf).refcnt = 0 →
      ∃ v, scanVictim bufs order (bufs.getD v0 zeroBuf).lastuse (some v0) = some v ∧
        (v = v0 ∨ v ∈ order) ∧ (bufs.getD v zeroBuf).refcnt = 0 ∧
        (bufs.getD v zeroBuf).lastuse ≤ (bufs.getD v0 zeroBuf).lastuse ∧
        ∀ j ∈ order, (bufs.getD j zeroBuf).refcnt = 0 →
          (bufs.getD v zeroBuf).lastuse ≤ (bufs.getD j zeroBuf).lastuse
  | [], v0, h0 => ⟨v0, rfl, Or.inl rfl, h0, Nat.le_refl _, by simp⟩
  | i :: rest, v0, h0 => by
    by_cases hc : (bufs.getD i zeroBuf).refcnt = 0 ∧
        (bufs.getD i zeroBuf).lastuse ≤ (bufs.getD v0 zeroBuf).lastuse
    · rcases scanVictim_min_go bufs rest i hc.1 with ⟨v, hv, hmem, hfree, hle, hmin⟩
      refine ⟨v, ?_, ?_, hfree, Nat.le_trans hle hc.2, ?_⟩
      · rw [scanVictim, if_pos hc]; exact hv
      · rcases hmem with h | h
        · exact Or.inr (by simp [h])
        · exact Or.inr (by simp [h])
      · intro j hj hjf
        rcases List.mem_cons.mp hj with hj | hj
        · exact hj ▸ hle
        · exact hmin j hj hjf
    · rcases scanVictim_min_go bufs rest v0 h0 with ⟨v, hv, hmem, hfree, hle, hmin⟩
      refine ⟨v, ?_, ?_, hfree, hle, ?_⟩
      · rw [scanVictim, if_neg hc]; exact hv
      · rcases hmem with h | h
        · exact Or.inl h
        · exact Or.inr (by simp [h])
      · intro j hj hjf
        rcases List.mem_cons.mp hj with hj | hj
        · subst hj
          have : ¬ (bufs.getD j zeroBuf).lastuse ≤ (bufs.getD v0 zeroBuf).lastuse := by
            intro hle2; exact hc ⟨hjf, hle2⟩
          exact Nat.le_trans hle (Nat.le_of_lt (Nat.lt_of_not_le this))
        · exact hmin j hj hjf

/-- The victim scan starting with no candidate: if some member is free
and every free member's lastuse is at most the starting minimum (the
global tick), it returns a free member of minimal lastuse. -/
theorem scanVictim_min (bufs : List Buf) :
    ∀ (order : List Nat) (mt : Nat),
      (∀ i ∈ order, (bufs.getD i zeroBuf).refcnt = 0 → (bufs.getD i zeroBuf).lastuse ≤ mt) →
      (∃ i ∈ order, (bufs.getD i zeroBuf).refcnt = 0) →
      ∃ v, scanVictim bufs order mt none = some v ∧ v ∈ order ∧
        (bufs.getD v zeroBuf).refcnt = 0 ∧
        ∀ j ∈ order, (bufs.getD j zeroBuf).refcnt = 0 →
          (bufs.getD v zeroBuf).lastuse ≤ (bufs.getD j zeroBuf).lastuse
  | [], mt, _, hex => by simp at hex
  | i :: rest, mt, hbound, hex => by
    by_cases hc : (bufs.getD i zeroBuf).refcnt = 0
    · have hle : (bufs.getD i zeroBuf).lastuse ≤ mt := hbound i (by simp) hc
      rcases scanVictim_min_go bufs rest i hc with ⟨v, hv, hmem, hfree, hlev, hmin⟩
      refine ⟨v, ?_, ?_, hfree, ?_⟩
      · rw [scanVictim, if_pos ⟨hc, hle⟩]; exact hv
      · rcases hmem with h | h
        · exact h ▸ (by simp)
        · exact by simp [h]
      · intro j hj hjf
        rcases List.mem_cons.mp hj with hj | hj
        · exact hj ▸ hlev
        · exact hmin j hj hjf
    · have hex2 : ∃ j ∈ rest, (bufs.getD j zeroBuf).refcnt = 0 := by
        rcases hex with ⟨j, hj, hjf⟩
        rcases List.mem_cons.mp hj with hj | hj
        · exact absurd (hj ▸ hjf) hc
        · exact ⟨j, hj, hjf⟩
      have hbound2 : ∀ j ∈ rest, (bufs.getD j zeroBuf).refcnt = 0 →
          (bufs.getD j zeroBuf).lastuse ≤ mt :=
        fun j hj => hbound j (List.mem_cons_of_mem i hj)
      rcases scanVictim_min bufs rest mt hbound2 hex2 with ⟨v, hv, hmem, hfree, hmin⟩
      refine ⟨v, ?_, by simp [hmem], hfree, ?_⟩
      · rw [scanVictim, if_neg (fun hcc => hc hcc.1)]; exact hv
      · intro j hj hjf
        rcases List.mem_cons.mp hj with hj | hj
        · exact absurd (hj ▸ hjf) hc
        · exact hmin j hj hjf

/-- The steal loop either panics leaving the state untouched, or
succeeds on some bucket i ≠ id whose victim scan found a slot, producing
exactly the stealApply state. -/
theorem stealGo_spec (c : BCache) (dev bn id : Nat) :
    ∀ l, ((stealGo c dev bn id l).ret = none ∧ (stealGo c dev bn id l).cache = c) ∨
      ∃ i v, i ∈ l ∧ i ≠ id ∧
        scanVictim c.bufs (c.buckets.getD i []) c.ticks none = some v ∧
        (stealGo c dev bn id l).ret = some (v, Path.steal) ∧
        (stealGo c dev bn id l).cache = stealApply c dev bn id i v
  | [] => Or.inl ⟨rfl, rfl⟩
  | i :: rest => by
    by_cases hc : i = id
    · rw [stealGo, if_pos hc]
      rcases stealGo_spec c dev bn id rest with h | ⟨i2, v, hm, hne, hs, hr, hcache⟩
      · exact Or.inl h
      · exact Or.inr ⟨i2, v, List.mem_cons_of_mem i hm, hne, hs, hr, hcache⟩
    · rw [stealGo, if_neg hc]
      cases hscan : scanVictim c.bufs (c.buckets.getD i []) c.ticks none with
      | none =>
        rcases stealGo_spec c dev bn id rest with ⟨h1, h2⟩ | ⟨i2, v, hm, hne, hs, hr, hcache⟩
        · exact Or.inl ⟨h1, h2⟩
        · exact Or.inr ⟨i2, v, List.mem_cons_of_mem i hm, hne, hs, hr, hcache⟩
      | some v =>
        exact Or.inr ⟨i, v, by simp, hc, hscan, rfl, rfl⟩

/-- Case analysis of bget: it takes exactly one of the hit, local
eviction, steal, or panic branches, with the corresponding state. -/
theorem bget_spec (c : BCache) (dev bn : Nat) :
    (∃ i, findHit c.bufs dev bn (c.buckets.getD (myhash c.nbucket bn) []) = some i ∧
      (bget c dev bn).cache = hitApply c i ∧ (bget c dev bn).ret = some (i, Path.hit)) ∨
    (findHit c.bufs dev bn (c.buckets.getD (myhash c.nbucket bn) []) = none ∧
      ∃ v, scanVictim c.bufs (c.buckets.getD (myhash c.nbucket bn) []) c.ticks none = some v ∧
        (bget c dev bn).cache = evictApply c dev bn v ∧
        (bget c dev bn).ret = some (v, Path.localEvict)) ∨
    ((bget c dev bn).ret = none ∧ (bget c dev bn).cache = c) ∨
    (∃ i v, i ∈ List.range c.nbucket ∧ i ≠ myhash c.nbucket bn ∧
      scanVictim c.bufs (c.buckets.getD i []) c.ticks none = some v ∧
      (bget c dev bn).ret = some (v, Path.steal) ∧
      (bget c dev bn).cache = stealApply c dev bn (myhash c.nbucket bn) i v) := by
  unfold bget
  cases hf : findHit c.bufs dev bn (c.buckets.getD (myhash c.nbucket bn) []) with
  | some i => exact Or.inl ⟨i, rfl, rfl, rfl⟩
  | none =>
    cases hs : scanVictim c.bufs (c.buckets.getD (myhash c.nbucket bn) []) c.ticks none with
    | some v => exact Or.inr (Or.inl ⟨rfl, v, rfl, rfl, rfl⟩)
    | none =>
      rcases stealGo_spec c dev bn (myhash c.nbucket bn) (List.range c.nbucket) with
        ⟨h1, h2⟩ | ⟨i, v, hm, hne, hsc, hr, hcache⟩
      · exact Or.inr (Or.inr (Or.inl ⟨h1, h2⟩))
      · exact Or.inr (Or.inr (Or.inr ⟨i, v, hm, hne, hsc, hr, hcache⟩))

/-- The slot array is unchanged by stealApply except at the victim. -/
theorem getBuf_stealApply (c : BCache) (dev bn id i v j : Nat) :
    getBuf (stealApply c dev bn id i v) j =
      if j = v ∧ v < c.bufs.length then bufinit (getBuf c v) dev bn else getBuf c j := by
  have h : getBuf (stealApply c dev bn id i v) j =
      getBuf (updateBuf c v (fun b => bufinit b dev bn)) j := rfl
  rw [h]
  exact getBuf_updateBuf c v (fun b => bufinit b dev bn) j

/-- The slot array is unchanged by evictApply except at the victim. -/
theorem getBuf_evictApply (c : BCache) (dev bn v j : Nat) :
    getBuf (evictApply c dev bn v) j =
      if j = v ∧ v < c.bufs.length then bufinit (getBuf c v) dev bn else getBuf c j := by
  unfold evictApply
  exact getBuf_updateBuf c v (fun b => bufinit b dev bn) j

/-- The slot array is unchanged by hitApply except the refcnt of the hit
slot. -/
theorem getBuf_hitApply (c : BCache) (i j : Nat) :
    getBuf (hitApply c i) j =
      if j = i ∧ i < c.bufs.length
      then { getBuf c i with refcnt := (getBuf c i).refcnt + 1 } else getBuf c j := by
  unfold hitApply
  exact getBuf_updateBuf c i (fun b => { b with refcnt := b.refcnt + 1 }) j

/-- Every slot index returned by bget is a member of some bucket of the
incoming state. -/
theorem bget_ret_mem (c : BCache) (dev bn : Nat) (i : Nat) (p : Path)
    (h : (bget c dev bn).ret = some (i, p)) :
    ∃ l ∈ c.buckets, i ∈ l := by
  rcases bget_spec c dev bn with ⟨j, hf, _, hr⟩ | ⟨_, v, hs, _, hr⟩ | ⟨hr, _⟩ |
    ⟨i2, v, _, _, hs, hr, _⟩
  · rw [h] at hr
    cases hr
    have hm := (findHit_some c.bufs dev bn _ _ hf).1
    have hlt : myhash c.nbucket bn < c.buckets.length := by
      by_contra hge
      rw [getD_of_le ([] : List Nat) c.buckets _ (Nat.le_of_not_lt hge)] at hm
      simp at hm
    exact ⟨_, getD_mem [] c.buckets _ hlt, hm⟩
  · rw [h] at hr
    cases hr
    rcases scanVictim_some c.bufs _ _ _ _ hs with h1 | ⟨hm, _⟩
    · cases h1
    · have hlt : myhash c.nbucket bn < c.buckets.length := by
        by_contra hge
        rw [getD_of_le ([] : List Nat) c.buckets _ (Nat.le_of_not_lt hge)] at hm
        simp at hm
      exact ⟨_, getD_mem [] c.buckets _ hlt, hm⟩
  · rw [h] at hr
    cases hr
  · rw [h] at hr
    cases hr
    rcases scanVictim_some c.bufs _ _ _ _ hs with h1 | ⟨hm, _⟩
    · cases h1
    · have hlt : i2 < c.buckets.length := by
        by_contra hge
        rw [getD_of_le ([] : List Nat) c.buckets _ (Nat.le_of_not_lt hge)] at hm
        simp at hm
      exact ⟨_, getD_mem [] c.buckets _ hlt, hm⟩

/-- On a well-formed state every slot index returned by bget is in
range. -/
theorem bget_ret_lt (c : BCache) (dev bn : Nat) (hwf : wfIndices c) (i : Nat) (p : Path)
    (h : (bget c dev bn).ret = some (i, p)) : i < c.bufs.length := by
  rcases bget_ret_mem c dev bn i p h with ⟨l, hl, hi⟩
  exact hwf l hl i hi

/-- Along the event trace of the steal loop entered holding only the
target shard lock, the held-set is always empty, exactly the target, or
exactly one other shard on top of the target. -/
theorem stealGo_held (c : BCache) (dev bn id : Nat) :
    ∀ l, ∀ h ∈ heldStates (stealGo c dev bn id l).evs [id],
      h = [] ∨ h = [id] ∨ ∃ i, i ≠ id ∧ h = [i, id]
  | [], h, hh => by
    have hs : heldStates (stealGo c dev bn id ([] : List Nat)).evs [id] = [[id], []] := by
      simp [stealGo, heldStates, stepHeld, removeSlot]
    rw [hs] at hh
    rcases List.mem_cons.mp hh with h1 | h1
    · exact Or.inr (Or.inl h1)
    · rcases List.mem_cons.mp h1 with h2 | h2
      · exact Or.inl h2
      · simp at h2
  | i :: rest, h, hh => by
    by_cases hc : i = id
    · rw [stealGo, if_pos hc] at hh
      exact stealGo_held c dev bn id rest h hh
    · rw [stealGo, if_neg hc] at hh
      revert hh
      cases hscan : scanVictim c.bufs (c.buckets.getD i []) c.ticks none with
      | none =>
        intro hh
        simp only [heldStates, stepHeld] at hh
        rw [show removeSlot i (i :: [id]) = [id] by simp [removeSlot]] at hh
        rcases List.mem_cons.mp hh with h1 | h1
        · exact Or.inr (Or.inl h1)
        · rcases List.mem_cons.mp h1 with h2 | h2
          · exact Or.inr (Or.inr ⟨i, hc, h2⟩)
          · exact stealGo_held c dev bn id rest h h2
      | some v =>
        intro hh
        simp only [heldStates, stepHeld] at hh
        rw [show removeSlot i (i :: [id]) = [id] by simp [removeSlot]] at hh
        rw [show removeSlot id [id] = [] by simp [removeSlot]] at hh
        rcases List.mem_cons.mp hh with h1 | h1
        · exact Or.inr (Or.inl h1)
        · rcases List.mem_cons.mp h1 with h2 | h2
          · exact Or.inr (Or.inr ⟨i, hc, h2⟩)
          · rcases List.mem_cons.mp h2 with h3 | h3
            · exact Or.inr (Or.inl h3)
            · rcases List.mem_cons.mp h3 with h4 | h4
              · exact Or.inl h4
              · rcases List.mem_cons.mp h4 with h5 | h5
                · exact Or.inl h5
                · simp at h5

/-- A member of any bucket is in range on a well-formed state. -/
theorem mem_getD_buckets {c : BCache} {j i : Nat} (hwf : wfIndices c)
    (h : i ∈ c.buckets.getD j []) : i < c.bufs.length := by
  have hlt : j < c.buckets.length := by
    by_contra hge
    rw [getD_of_le ([] : List Nat) c.buckets j (Nat.le_of_not_lt hge)] at h
    simp at h
  exact hwf _ (getD_mem [] c.buckets j hlt) i h

/-- C1, counterexample: on the concrete state exSteal the steal path of
bget holds the target shard lock 0 and shard lock 1 at the same instant,
so it is not the case that at most one shard lock is ever held. -/
theorem c1_ce : ¬ ∀ h ∈ heldStates (bget exSteal 1 0).evs [], h.length ≤ 1 := by decide

/-- C1, amended: during bget the held shard-lock set is always empty,
exactly the target shard, or exactly one other shard on top of the
target shard: the target shard lock is held throughout the steal scan,
so at most two shard locks are held at any instant and two non-target
shard locks are never held together. -/
theorem c1_thm (c : BCache) (dev bn : Nat) :
    ∀ h ∈ heldStates (bget c dev bn).evs [],
      h = [] ∨ h = [myhash c.nbucket bn] ∨
      ∃ i, i ≠ myhash c.nbucket bn ∧ h = [i, myhash c.nbucket bn] := by
  unfold bget
  cases hf : findHit c.bufs dev bn (c.buckets.getD (myhash c.nbucket bn) []) with
  | some i =>
    intro h hh
    simp only [heldStates, stepHeld] at hh
    rw [show removeSlot (myhash c.nbucket bn) [myhash c.nbucket bn] = []
      by simp [removeSlot]] at hh
    rcases List.mem_cons.mp hh with h1 | h1
    · exact Or.inl h1
    · rcases List.mem_cons.mp h1 with h2 | h2
      · exact Or.inr (Or.inl h2)
      · rcases List.mem_cons.mp h2 with h3 | h3
        · exact Or.inl h3
        · rcases List.mem_cons.mp h3 with h4 | h4
          · exact Or.inl h4
          · simp at h4
  | none =>
    cases hs : scanVictim c.bufs (c.buckets.getD (myhash c.nbucket bn) []) c.ticks none with
    | some v =>
      intro h hh
      simp only [heldStates, stepHeld] at hh
      rw [show removeSlot (myhash c.nbucket bn) [myhash c.nbucket bn] = []
        by simp [removeSlot]] at hh
      rcases List.mem_cons.mp hh with h1 | h1
      · exact Or.inl h1
      · rcases List.mem_cons.mp h1 with h2 | h2
        · exact Or.inr (Or.inl h2)
        · rcases List.mem_cons.mp h2 with h3 | h3
          · exact Or.inl h3
          · rcases List.mem_cons.mp h3 with h4 | h4
            · exact Or.inl h4
            · simp at h4
    | none =>
      intro h hh
      simp only [heldStates, stepHeld] at hh
      rcases List.mem_cons.mp hh with h1 | h1
      · exact Or.inl h1
      · exact stealGo_held c dev bn (myhash c.nbucket bn) (List.range c.nbucket) h h1

/-- C1, witness: the amended characterization applied to the concrete
steal scenario, at the instant both locks are held. -/
theorem c1_wit :
    [1, 0] = [] ∨ [1, 0] = [myhash exSteal.nbucket 0] ∨
    ∃ i, i ≠ myhash exSteal.nbucket 0 ∧ [1, 0] = [i, myhash exSteal.nbucket 0] :=
  c1_thm exSteal 1 0 [1, 0] (by decide)

/-- C2, counterexample: the hit scan of bget checks only the identity:
on exHitInvalid the matching slot has valid = false, yet the hit path
returns it (incrementing its refcnt). -/
theorem c2_ce :
    (getBuf exHitInvalid 0).valid = false ∧
    (bget exHitInvalid 1 0).ret = some (0, Path.hit) ∧
    getBuf (bget exHitInvalid 1 0).cache 0 = ⟨1, 0, false, 6, 0, 0⟩ := by decide

/-- C2, amended: the hit path of bget returns a cached slot exactly when
its identity matches the requested (dev, blockno); the valid flag is not
consulted, so a matching slot with valid = false is returned as well
(bread refreshes its payload afterwards). -/
theorem c2_thm (c : BCache) (dev bn : Nat) (hwf : wfIndices c)
    (hex : ∃ i ∈ c.buckets.getD (myhash c.nbucket bn) [],
      (getBuf c i).dev = dev ∧ (getBuf c i).blockno = bn) :
    ∃ j, (bget c dev bn).ret = some (j, Path.hit) ∧
      (getBuf c j).dev = dev ∧ (getBuf c j).blockno = bn ∧
      getBuf (bget c dev bn).cache j =
        { getBuf c j with refcnt := (getBuf c j).refcnt + 1 } := by
  cases hf : findHit c.bufs dev bn (c.buckets.getD (myhash c.nbucket bn) []) with
  | none =>
    exfalso
    rcases hex with ⟨i, hi, hid⟩
    exact ((findHit_eq_none c.bufs dev bn _).mp hf) i hi hid
  | some j =>
    rcases findHit_some c.bufs dev bn _ j hf with ⟨hjm, hjd, hjb⟩
    have hjl : j < c.bufs.length := mem_getD_buckets hwf hjm
    have hret : (bget c dev bn).ret = some (j, Path.hit) := by
      unfold bget; rw [hf]
    have hcache : (bget c dev bn).cache = hitApply c j := by
      unfold bget; rw [hf]
    refine ⟨j, hret, hjd, hjb, ?_⟩
    rw [hcache, getBuf_hitApply, if_pos ⟨rfl, hjl⟩]

/-- C2, witness: the amended hit-path characterization applied to the
concrete state with a matching but invalid slot. -/
theorem c2_wit :
    ∃ j, (bget exHitInvalid 1 0).ret = some (j, Path.hit) ∧
      (getBuf exHitInvalid j).dev = 1 ∧ (getBuf exHitInvalid j).blockno = 0 ∧
      getBuf (bget exHitInvalid 1 0).cache j =
        { getBuf exHitInvalid j with refcnt := (getBuf exHitInvalid j).refcnt + 1 } :=
  c2_thm exHitInvalid 1 0 (by decide) ⟨0, by decide, by decide, by decide⟩

/-- C3, counterexample: on a state in which the caller holds no sleep
lock, bunpin and bpin proceed and modify the slot instead of failing
with a fatal error. -/
theorem c3_ce :
    0 ∉ exHitInvalid.held ∧
    (bunpin exHitInvalid 0).1.bufs = [⟨1, 0, false, 4, 0, 0⟩] ∧
    (bpin exHitInvalid 0).1.bufs = [⟨1, 0, false, 6, 0, 0⟩] := by decide

/-- C3, amended: when the caller does not hold the slot's access lock,
bwrite and brelse fail with a fatal assertion-style error and change
nothing, but bpin and bunpin perform no holdingsleep check and proceed
to adjust the reference count. -/
theorem c3_thm (c : BCache) (i : Nat) (h : i ∉ c.held) :
    bwrite c i = none ∧
    (brelse c i).panicked = true ∧ (brelse c i).cache = c ∧
    (bpin c i).1 = updateBuf c i (fun b => { b with refcnt := b.refcnt + 1 }) ∧
    (bunpin c i).1 = updateBuf c i (fun b => { b with refcnt := b.refcnt - 1 }) := by
  refine ⟨?_, ?_, ?_, rfl, rfl⟩
  · unfold bwrite; rw [if_neg h]
  · unfold brelse; rw [if_neg h]
  · unfold brelse; rw [if_neg h]

/-- C3, witness: the amended behavior at the concrete lock-free state. -/
theorem c3_wit :
    bwrite exHitInvalid 0 = none ∧
    (brelse exHitInvalid 0).panicked = true ∧ (brelse exHitInvalid 0).cache = exHitInvalid ∧
    (bpin exHitInvalid 0).1 = updateBuf exHitInvalid 0 (fun b => { b with refcnt := b.refcnt + 1 }) ∧
    (bunpin exHitInvalid 0).1 = updateBuf exHitInvalid 0 (fun b => { b with refcnt := b.refcnt - 1 }) :=
  c3_thm exHitInvalid 0 (by decide)

/-- C4: when the request misses in its shard and no slot anywhere has
refcnt = 0, bget panics with the capacity-exhausted error and returns no
slot, leaving the whole cache state untouched. -/
theorem c4_thm (c : BCache) (dev bn : Nat)
    (hmiss : ∀ i ∈ c.buckets.getD (myhash c.nbucket bn) [],
      ¬((getBuf c i).dev = dev ∧ (getBuf c i).blockno = bn))
    (hbusy : ∀ l ∈ c.buckets, ∀ i ∈ l, (getBuf c i).refcnt ≠ 0) :
    (bget c dev bn).ret = none ∧ (bget c dev bn).cache = c := by
  have hscan : ∀ j, scanVictim c.bufs (c.buckets.getD j []) c.ticks none = none := by
    intro j
    by_cases hlt : j < c.buckets.length
    · exact scanVictim_busy c.bufs _ c.ticks none (hbusy _ (getD_mem [] c.buckets j hlt))
    · rw [getD_of_le ([] : List Nat) c.buckets j (Nat.le_of_not_lt hlt)]
      rfl
  rcases bget_spec c dev bn with ⟨i, hf2, _, _⟩ | ⟨_, v, hs2, _, _⟩ | ⟨h1, h2⟩ |
    ⟨i, v, _, _, hs2, _, _⟩
  · rw [(findHit_eq_none c.bufs dev bn _).mpr hmiss] at hf2
    cases hf2
  · rw [hscan _] at hs2
    cases hs2
  · exact ⟨h1, h2⟩
  · rw [hscan _] at hs2
    cases hs2

/-- C4, witness: the one-slot cache whose slot is held: acquiring a new
identity panics and modifies nothing. -/
theorem c4_wit : (bget exBusy 1 2).ret = none ∧ (bget exBusy 1 2).cache = exBusy :=
  c4_thm exBusy 1 2 (by decide) (by decide)

/-- C5: every victim chosen by bget, on the local-eviction path or the
steal path, has refcnt = 0 in the pre-state, and no slot with a nonzero
refcnt ever has its identity or valid flag rewritten by bget. -/
theorem c5_thm (c : BCache) (dev bn : Nat) :
    (∀ v p, (bget c dev bn).ret = some (v, p) → p ≠ Path.hit → (getBuf c v).refcnt = 0) ∧
    ∀ j, (getBuf c j).refcnt ≠ 0 →
      (getBuf (bget c dev bn).cache j).dev = (getBuf c j).dev ∧
      (getBuf (bget c dev bn).cache j).blockno = (getBuf c j).blockno ∧
      (getBuf (bget c dev bn).cache j).valid = (getBuf c j).valid := by
  rcases bget_spec c dev bn with ⟨i, hf, hcache, hret⟩ | ⟨hf, v, hs, hcache, hret⟩ |
    ⟨hret, hcache⟩ | ⟨i, v, hm, hne, hs, hret, hcache⟩
  · constructor
    · intro v p hvp hph
      rw [hret] at hvp
      cases hvp
      exact absurd rfl hph
    · intro j hj
      rw [hcache, getBuf_hitApply]
      by_cases hcond : j = i ∧ i < c.bufs.length
      · rw [if_pos hcond]
        rcases hcond with ⟨rfl, _⟩
        exact ⟨rfl, rfl, rfl⟩
      · rw [if_neg hcond]
        exact ⟨rfl, rfl, rfl⟩
  · have hfree : (getBuf c v).refcnt = 0 := by
      rcases scanVictim_some c.bufs _ _ _ _ hs with h1 | ⟨_, h2⟩
      · cases h1
      · exact h2
    constructor
    · intro v2 p hvp _
      rw [hret] at hvp
      cases hvp
      exact hfree
    · intro j hj
      rw [hcache, getBuf_evictApply]
      by_cases hcond : j = v ∧ v < c.bufs.length
      · rcases hcond with ⟨rfl, _⟩
        exact absurd hfree hj
      · rw [if_neg hcond]
        exact ⟨rfl, rfl, rfl⟩
  · constructor
    · intro v p hvp _
      rw [hret] at hvp
      cases hvp
    · intro j hj
      rw [hcache]
      exact ⟨rfl, rfl, rfl⟩
  · have hfree : (getBuf c v).refcnt = 0 := by
      rcases scanVictim_some c.bufs _ _ _ _ hs with h1 | ⟨_, h2⟩
      · cases h1
      · exact h2
    constructor
    · intro v2 p hvp _
      rw [hret] at hvp
      cases hvp
      exact hfree
    · intro j hj
      rw [hcache, getBuf_stealApply]
      by_cases hcond : j = v ∧ v < c.bufs.length
      · rcases hcond with ⟨rfl, _⟩
        exact absurd hfree hj
      · rw [if_neg hcond]
        exact ⟨rfl, rfl, rfl⟩

/-- C5, witness: on the concrete steal scenario, the stolen victim had
refcnt = 0 at selection time. -/
theorem c5_wit : (getBuf exSteal 0).refcnt = 0 :=
  (c5_thm exSteal 1 0).1 0 Path.steal (by decide) (by decide)

/-- C10: bunpin decrements refcnt by one and leaves lastuse (and the
identity, valid flag, payload, other slots, buckets and ticks) unchanged
even when refcnt reaches zero, whereas brelse stamps lastuse with the
current tick when refcnt reaches zero; on the concrete exUnpin state the
two leave different recency stamps and a later eviction therefore
selects different victims. -/
theorem c10_thm (c : BCache) (i : Nat) (hlen : i < c.bufs.length) :
    getBuf (bunpin c i).1 i = { getBuf c i with refcnt := (getBuf c i).refcnt - 1 } ∧
    (getBuf (bunpin c i).1 i).lastuse = (getBuf c i).lastuse ∧
    (bunpin c i).1.buckets = c.buckets ∧
    (bunpin c i).1.ticks = c.ticks ∧
    (∀ j, j ≠ i → getBuf (bunpin c i).1 j = getBuf c j) ∧
    (i ∈ c.held → (getBuf c i).refcnt = 1 →
      (getBuf (brelse c i).cache i).lastuse = c.ticks) ∧
    ((bget (bunpin exUnpin 0).1 7 1).ret = some (0, Path.localEvict) ∧
      (bget (brelse exUnpin 0).cache 7 1).ret = some (1, Path.localEvict)) := by
  have hb : (bunpin c i).1 = updateBuf c i (fun b => { b with refcnt := b.refcnt - 1 }) := rfl
  have h1 : getBuf (bunpin c i).1 i = { getBuf c i with refcnt := (getBuf c i).refcnt - 1 } := by
    rw [hb, getBuf_updateBuf, if_pos ⟨rfl, hlen⟩]
  refine ⟨h1, by rw [h1], rfl, rfl, ?_, ?_, by decide, by decide⟩
  · intro j hj
    rw [hb, getBuf_updateBuf, if_neg (fun hcond => hj hcond.1)]
  · intro hheld hone
    have hc : (brelse c i).cache =
        updateBuf { c with held := removeSlot i c.held } i (fun b =>
          if b.refcnt - 1 = 0 then { b with refcnt := b.refcnt - 1, lastuse := c.ticks }
          else { b with refcnt := b.refcnt - 1 }) := by
      unfold brelse
      rw [if_pos hheld]
    rw [hc, getBuf_updateBuf]
    rw [if_pos ⟨rfl, hlen⟩]
    show (if (getBuf c i).refcnt - 1 = 0
      then { getBuf c i with refcnt := (getBuf c i).refcnt - 1, lastuse := c.ticks }
      else { getBuf c i with refcnt := (getBuf c i).refcnt - 1 }).lastuse = c.ticks
    rw [hone]
    simp

/-- C10, witness: the frame property of bunpin and the contrasting
brelse stamp at the concrete exUnpin state. -/
theorem c10_wit :
    getBuf (bunpin exUnpin 0).1 0 =
      { getBuf exUnpin 0 with refcnt := (getBuf exUnpin 0).refcnt - 1 } ∧
    (getBuf (brelse exUnpin 0).cache 0).lastuse = exUnpin.ticks := by
  have h := c10_thm exUnpin 0 (by decide)
  exact ⟨h.1, h.2.2.2.2.2.1 (by decide) (by decide)⟩

/-- bget preserves the length of the slot array. -/
theorem bget_bufs_length (c : BCache) (dev bn : Nat) :
    (bget c dev bn).cache.bufs.length = c.bufs.length := by
  rcases bget_spec c dev bn with ⟨i, _, hcache, _⟩ | ⟨_, v, _, hcache, _⟩ | ⟨_, hcache⟩ |
    ⟨i, v, _, _, _, _, hcache⟩
  · rw [hcache]
    exact length_updateBuf c i (fun b => { b with refcnt := b.refcnt + 1 })
  · rw [hcache]
    exact length_updateBuf c v (fun b => bufinit b dev bn)
  · rw [hcache]
  · rw [hcache]
    exact length_updateBuf c v (fun b => bufinit b dev bn)

/-- Unfolding of bread once bget has returned a slot. -/
theorem bread_eq (disk : Nat → Nat → Nat) (c : BCache) (dev bn i : Nat) (p : Path)
    (hret : (bget c dev bn).ret = some (i, p)) :
    bread disk c dev bn =
      if (getBuf (bget c dev bn).cache i).valid
      then ⟨(bget c dev bn).cache, some i, false⟩
      else ⟨updateBuf (bget c dev bn).cache i
          (fun b => { b with data := disk b.dev b.blockno, valid := true }), some i, true⟩ := by
  unfold bread
  rw [hret]

/-- C6: on a miss with at least one free slot in the home shard, and
with every free slot's lastuse at most the current tick (the invariant
maintained by brelse under a monotone tick counter), bget takes the
local-eviction branch and returns a free member of minimal lastuse,
re-initialized to the requested identity with valid = false and
refcnt = 1, lastuse and payload untouched. -/
theorem c6_thm (c : BCache) (dev bn : Nat) (hwf : wfIndices c)
    (hmiss : ∀ i ∈ c.buckets.getD (myhash c.nbucket bn) [],
      ¬((getBuf c i).dev = dev ∧ (getBuf c i).blockno = bn))
    (hbound : ∀ i ∈ c.buckets.getD (myhash c.nbucket bn) [],
      (getBuf c i).refcnt = 0 → (getBuf c i).lastuse ≤ c.ticks)
    (hex : ∃ i ∈ c.buckets.getD (myhash c.nbucket bn) [], (getBuf c i).refcnt = 0) :
    ∃ v, (bget c dev bn).ret = some (v, Path.localEvict) ∧
      v ∈ c.buckets.getD (myhash c.nbucket bn) [] ∧
      (getBuf c v).refcnt = 0 ∧
      (∀ j ∈ c.buckets.getD (myhash c.nbucket bn) [],
        (getBuf c j).refcnt = 0 → (getBuf c v).lastuse ≤ (getBuf c j).lastuse) ∧
      getBuf (bget c dev bn).cache v =
        { getBuf c v with dev := dev, blockno := bn, valid := false, refcnt := 1 } := by
  have hf : findHit c.bufs dev bn (c.buckets.getD (myhash c.nbucket bn) []) = none :=
    (findHit_eq_none c.bufs dev bn _).mpr hmiss
  rcases scanVictim_min c.bufs (c.buckets.getD (myhash c.nbucket bn) []) c.ticks hbound hex with
    ⟨v, hsv, hvm, hvf, hvmin⟩
  have hret : (bget c dev bn).ret = some (v, Path.localEvict) := by
    unfold bget
    rw [hf, hsv]
  have hcache : (bget c dev bn).cache = evictApply c dev bn v := by
    unfold bget
    rw [hf, hsv]
  have hvl : v < c.bufs.length := mem_getD_buckets hwf hvm
  refine ⟨v, hret, hvm, hvf, hvmin, ?_⟩
  rw [hcache, getBuf_evictApply, if_pos ⟨rfl, hvl⟩]
  rfl

/-- C6, witness: the local-eviction characterization on the concrete
two-slot bucket, where the scan must pick the slot with lastuse 3. -/
theorem c6_wit :
    ∃ v, (bget exEvict 1 4).ret = some (v, Path.localEvict) ∧
      v ∈ exEvict.buckets.getD (myhash exEvict.nbucket 4) [] ∧
      (getBuf exEvict v).refcnt = 0 ∧
      (∀ j ∈ exEvict.buckets.getD (myhash exEvict.nbucket 4) [],
        (getBuf exEvict j).refcnt = 0 → (getBuf exEvict v).lastuse ≤ (getBuf exEvict j).lastuse) ∧
      getBuf (bget exEvict 1 4).cache v =
        { getBuf exEvict v with dev := 1, blockno := 4, valid := false, refcnt := 1 } :=
  c6_thm exEvict 1 4 (by decide) (by decide) (by decide) ⟨0, by decide, by decide⟩

/-- C7: bread performs the device read exactly when the slot handed back
by bget is invalid, sets valid afterwards, and otherwise returns the
bget state unchanged; on a hit of an already-valid slot no transfer
happens and the slot is unchanged except for the refcnt increment. -/
theorem c7_thm (disk : Nat → Nat → Nat) (c : BCache) (dev bn i : Nat) (p : Path)
    (hwf : wfIndices c) (hret : (bget c dev bn).ret = some (i, p)) :
    ((bread disk c dev bn).didRead = true ↔
      (getBuf (bget c dev bn).cache i).valid = false) ∧
    (bread disk c dev bn).ret = some i ∧
    ((bread disk c dev bn).didRead = false →
      (bread disk c dev bn).cache = (bget c dev bn).cache) ∧
    ((bread disk c dev bn).didRead = true →
      getBuf (bread disk c dev bn).cache i =
        { getBuf (bget c dev bn).cache i with
          valid := true
          data := disk (getBuf (bget c dev bn).cache i).dev
            (getBuf (bget c dev bn).cache i).blockno }) ∧
    (p = Path.hit →
      getBuf (bget c dev bn).cache i =
        { getBuf c i with refcnt := (getBuf c i).refcnt + 1 } ∧
      ((getBuf c i).valid = true → (bread disk c dev bn).didRead = false)) := by
  have hlen : i < (bget c dev bn).cache.bufs.length := by
    rw [bget_bufs_length]
    exact bget_ret_lt c dev bn hwf i p hret
  have he := bread_eq disk c dev bn i p hret
  have hhit : p = Path.hit →
      getBuf (bget c dev bn).cache i =
        { getBuf c i with refcnt := (getBuf c i).refcnt + 1 } := by
    intro hp
    subst hp
    rcases bget_spec c dev bn with ⟨i2, hf, hcache, hret2⟩ | ⟨_, v, _, _, hret2⟩ |
      ⟨hret2, _⟩ | ⟨i2, v, _, _, _, hret2, _⟩
    · rw [hret] at hret2
      cases hret2
      have hml : i < c.bufs.length :=
        mem_getD_buckets hwf (findHit_some c.bufs dev bn _ _ hf).1
      rw [hcache, getBuf_hitApply, if_pos ⟨rfl, hml⟩]
    · rw [hret] at hret2
      cases hret2
    · rw [hret] at hret2
      cases hret2
    · rw [hret] at hret2
      cases hret2
  by_cases hv : (getBuf (bget c dev bn).cache i).valid
  · rw [he, if_pos hv]
    refine ⟨by simp [hv], rfl, fun _ => rfl, by simp, fun hp => ⟨hhit hp, fun _ => rfl⟩⟩
  · have hvf : (getBuf (bget c dev bn).cache i).valid = false := by
      simpa using hv
    rw [he, if_neg hv]
    refine ⟨by simp [hvf], rfl, by simp, fun _ => ?_, fun hp => ⟨hhit hp, fun hvt => ?_⟩⟩
    · show getBuf (updateBuf (bget c dev bn).cache i
        (fun b => { b with data := disk b.dev b.blockno, valid := true })) i = _
      rw [getBuf_updateBuf, if_pos ⟨rfl, hlen⟩]
    · exfalso
      rw [hhit hp] at hvf
      rw [show ({ getBuf c i with refcnt := (getBuf c i).refcnt + 1 } : Buf).valid =
        (getBuf c i).valid from rfl] at hvf
      rw [hvt] at hvf
      cases hvf

/-- C7, witness: on the concrete eviction state the returned slot is
invalid, bread performs the read, marks the slot valid and stores the
device bytes. -/
theorem c7_wit :
    (((bread (fun d b => 100 * d + b) exEvict 1 4).didRead = true ↔
      (getBuf (bget exEvict 1 4).cache 1).valid = false) ∧
    (bread (fun d b => 100 * d + b) exEvict 1 4).ret = some 1 ∧
    ((bread (fun d b => 100 * d + b) exEvict 1 4).didRead = false →
      (bread (fun d b => 100 * d + b) exEvict 1 4).cache = (bget exEvict 1 4).cache) ∧
    ((bread (fun d b => 100 * d + b) exEvict 1 4).didRead = true →
      getBuf (bread (fun d b => 100 * d + b) exEvict 1 4).cache 1 =
        { getBuf (bget exEvict 1 4).cache 1 with
          valid := true
          data := (fun d b => 100 * d + b) (getBuf (bget exEvict 1 4).cache 1).dev
            (getBuf (bget exEvict 1 4).cache 1).blockno }) ∧
    (Path.localEvict = Path.hit →
      getBuf (bget exEvict 1 4).cache 1 =
        { getBuf exEvict 1 with refcnt := (getBuf exEvict 1).refcnt + 1 } ∧
      ((getBuf exEvict 1).valid = true →
        (bread (fun d b => 100 * d + b) exEvict 1 4).didRead = false))) :=
  c7_thm (fun d b => 100 * d + b) exEvict 1 4 1 Path.localEvict (by decide) (by decide)

/-- C8: brelse on a held slot releases the sleep lock before taking the
shard lock (the event trace is exactly release-sleep, acquire-shard,
release-shard), decrements refcnt by exactly one, stamps lastuse with
the current tick exactly when refcnt reaches zero, and otherwise leaves
lastuse, the identity, the valid flag, all other slots, the buckets and
the tick counter unchanged. -/
theorem c8_thm (c : BCache) (i : Nat) (hheld : i ∈ c.held)
    (hpos : 1 ≤ (getBuf c i).refcnt) (hlen : i < c.bufs.length) :
    (brelse c i).panicked = false ∧
    (brelse c i).evs = [Ev.relSleep i,
      Ev.acqShard (myhash c.nbucket (getBuf c i).blockno),
      Ev.relShard (myhash c.nbucket (getBuf c i).blockno)] ∧
    (getBuf (brelse c i).cache i).refcnt = (getBuf c i).refcnt - 1 ∧
    (getBuf (brelse c i).cache i).refcnt + 1 = (getBuf c i).refcnt ∧
    ((getBuf c i).refcnt - 1 = 0 → (getBuf (brelse c i).cache i).lastuse = c.ticks) ∧
    ((getBuf c i).refcnt - 1 ≠ 0 →
      (getBuf (brelse c i).cache i).lastuse = (getBuf c i).lastuse) ∧
    (getBuf (brelse c i).cache i).dev = (getBuf c i).dev ∧
    (getBuf (brelse c i).cache i).blockno = (getBuf c i).blockno ∧
    (getBuf (brelse c i).cache i).valid = (getBuf c i).valid ∧
    (∀ j, j ≠ i → getBuf (brelse c i).cache j = getBuf c j) ∧
    (brelse c i).cache.ticks = c.ticks ∧
    (brelse c i).cache.buckets = c.buckets := by
  have hr : brelse c i = ⟨updateBuf { c with held := removeSlot i c.held } i (fun b =>
      if b.refcnt - 1 = 0 then { b with refcnt := b.refcnt - 1, lastuse := c.ticks }
      else { b with refcnt := b.refcnt - 1 }), false,
      [Ev.relSleep i, Ev.acqShard (myhash c.nbucket (getBuf c i).blockno),
        Ev.relShard (myhash c.nbucket (getBuf c i).blockno)]⟩ := by
    unfold brelse
    rw [if_pos hheld]
  have hbuf : getBuf (brelse c i).cache i =
      if (getBuf c i).refcnt - 1 = 0
      then { getBuf c i with refcnt := (getBuf c i).refcnt - 1, lastuse := c.ticks }
      else { getBuf c i with refcnt := (getBuf c i).refcnt - 1 } := by
    rw [hr]
    show getBuf (updateBuf { c with held := removeSlot i c.held } i _) i = _
    rw [getBuf_updateBuf, if_pos ⟨rfl, hlen⟩]
    rfl
  have hrefcnt : (getBuf (brelse c i).cache i).refcnt = (getBuf c i).refcnt - 1 := by
    rw [hbuf]
    by_cases hz : (getBuf c i).refcnt - 1 = 0
    · rw [if_pos hz]
    · rw [if_neg hz]
  refine ⟨by rw [hr], by rw [hr], hrefcnt, ?_, ?_, ?_, ?_, ?_, ?_, ?_,
    by rw [hr]; rfl, by rw [hr]; rfl⟩
  · rw [hrefcnt]
    exact Nat.succ_pred_eq_of_pos hpos
  · intro hz
    rw [hbuf, if_pos hz]
  · intro hz
    rw [hbuf, if_neg hz]
  · rw [hbuf]
    by_cases hz : (getBuf c i).refcnt - 1 = 0
    · rw [if_pos hz]
    · rw [if_neg hz]
  · rw [hbuf]
    by_cases hz : (getBuf c i).refcnt - 1 = 0
    · rw [if_pos hz]
    · rw [if_neg hz]
  · rw [hbuf]
    by_cases hz : (getBuf c i).refcnt - 1 = 0
    · rw [if_pos hz]
    · rw [if_neg hz]
  · intro j hj
    rw [hr]
    show getBuf (updateBuf { c with held := removeSlot i c.held } i _) j = _
    rw [getBuf_updateBuf, if_neg (fun hcond => hj hcond.1)]
    rfl

/-- C8, witness: the brelse contract at the concrete exUnpin state,
where slot 0 is held with refcnt 1. -/
theorem c8_wit :
    ((brelse exUnpin 0).panicked = false ∧
    (brelse exUnpin 0).evs = [Ev.relSleep 0,
      Ev.acqShard (myhash exUnpin.nbucket (getBuf exUnpin 0).blockno),
      Ev.relShard (myhash exUnpin.nbucket (getBuf exUnpin 0).blockno)] ∧
    (getBuf (brelse exUnpin 0).cache 0).refcnt = (getBuf exUnpin 0).refcnt - 1 ∧
    (getBuf (brelse exUnpin 0).cache 0).refcnt + 1 = (getBuf exUnpin 0).refcnt ∧
    ((getBuf exUnpin 0).refcnt - 1 = 0 →
      (getBuf (brelse exUnpin 0).cache 0).lastuse = exUnpin.ticks) ∧
    ((getBuf exUnpin 0).refcnt - 1 ≠ 0 →
      (getBuf (brelse exUnpin 0).cache 0).lastuse = (getBuf exUnpin 0).lastuse) ∧
    (getBuf (brelse exUnpin 0).cache 0).dev = (getBuf exUnpin 0).dev ∧
    (getBuf (brelse exUnpin 0).cache 0).blockno = (getBuf exUnpin 0).blockno ∧
    (getBuf (brelse exUnpin 0).cache 0).valid = (getBuf exUnpin 0).valid ∧
    (∀ j, j ≠ 0 → getBuf (brelse exUnpin 0).cache j = getBuf exUnpin j) ∧
    (brelse exUnpin 0).cache.ticks = exUnpin.ticks ∧
    (brelse exUnpin 0).cache.buckets = exUnpin.buckets) :=
  c8_thm exUnpin 0 (by decide) (by decide) (by decide)

/-- An in-range getD is the corresponding get. -/
theorem getD_eq_get {α : Type} (d : α) :
    ∀ (l : List α) (j : Nat) (h : j < l.length), l.getD j d = l.get ⟨j, h⟩
  | [], j, h => absurd h (Nat.not_lt_zero j)
  | a :: l, 0, _ => rfl
  | a :: l, j + 1, h => by
    rw [List.getD_cons_succ]
    exact getD_eq_get d l j (Nat.lt_of_succ_lt_succ h)

/-- getD of a replicate list in range. -/
theorem getD_replicate {α : Type} (d a : α) :
    ∀ (n i : Nat), i < n → (List.replicate n a).getD i d = a
  | 0, i, h => absurd h (Nat.not_lt_zero i)
  | n + 1, 0, _ => rfl
  | n + 1, i + 1, h => by
    rw [List.replicate_succ, List.getD_cons_succ]
    exact getD_replicate d a n i (Nat.lt_of_succ_lt_succ h)

/-- wfIndices follows from its bucket-indexed form. -/
theorem wfIndices_of_range (c : BCache)
    (h : ∀ j ∈ List.range c.buckets.length, ∀ i ∈ c.buckets.getD j [], i < c.bufs.length) :
    wfIndices c := by
  intro l hl i hi
  rcases List.mem_iff_get.mp hl with ⟨n, hn⟩
  have h2 := h n.1 (List.mem_range.mpr n.2) i
  rw [getD_eq_get ([] : List Nat) c.buckets n.1 n.2] at h2
  exact h2 (show i ∈ c.buckets.get n by rw [hn]; exact hi)

/-- Updates that do not touch the block number preserve the bucket
invariant. -/
theorem bucketInv_updateBuf (c : BCache) (i : Nat) (f : Buf → Buf)
    (hbn : ∀ b, (f b).blockno = b.blockno) (h : bucketInv c) :
    bucketInv (updateBuf c i f) := by
  rcases h with ⟨hlen, hwf, hj⟩
  refine ⟨hlen, ?_, ?_⟩
  · intro l hl i2 hi2
    have h2 : i2 < c.bufs.length := hwf l hl i2 hi2
    rw [length_updateBuf]
    exact h2
  · intro j hj2
    refine ⟨?_, (hj j hj2).2⟩
    intro i2 hi2
    show myhash c.nbucket (getBuf (updateBuf c i f) i2).blockno = j
    rw [getBuf_updateBuf]
    by_cases hcond : i2 = i ∧ i < c.bufs.length
    · rw [if_pos hcond, hbn]
      rcases hcond with ⟨rfl, _⟩
      exact (hj j hj2).1 i2 hi2
    · rw [if_neg hcond]
      exact (hj j hj2).1 i2 hi2

/-- The bucket list of the initial state at an in-range index. -/
theorem getD_binit_buckets (nbucket nbuf j : Nat) (h : j < nbucket) :
    (binit nbucket nbuf).buckets.getD j [] =
      if j = 0 then (List.range nbuf).reverse else [] := by
  have hlen : j < ((List.range nbucket).map
      (fun j => if j = 0 then (List.range nbuf).reverse else [])).length := by
    simpa using h
  rw [show (binit nbucket nbuf).buckets = (List.range nbucket).map
    (fun j => if j = 0 then (List.range nbuf).reverse else []) from rfl]
  rw [getD_eq_get ([] : List Nat) _ j hlen]
  simp

/-- binit establishes the bucket invariant: all slots land in bucket 0
and their zeroed block number hashes to 0. -/
theorem bucketInv_binit (nbucket nbuf : Nat) : bucketInv (binit nbucket nbuf) := by
  refine ⟨by simp [binit], ?_, ?_⟩
  · apply wfIndices_of_range
    intro j hj i hi
    have hjlt : j < nbucket := by simpa [binit] using List.mem_range.mp hj
    rw [getD_binit_buckets nbucket nbuf j hjlt] at hi
    by_cases h0 : j = 0
    · rw [if_pos h0] at hi
      have hib : i < nbuf := by simpa using hi
      simpa [binit] using hib
    · rw [if_neg h0] at hi
      simp at hi
  · intro j hj
    have hjlt : j < nbucket := by simpa [binit] using List.mem_range.mp hj
    rw [getD_binit_buckets nbucket nbuf j hjlt]
    constructor
    · intro i hi
      by_cases h0 : j = 0
      · rw [if_pos h0] at hi
        have hib : i < nbuf := by simpa using hi
        have hz : getBuf (binit nbucket nbuf) i = zeroBuf := by
          show (List.replicate nbuf zeroBuf).getD i zeroBuf = zeroBuf
          exact getD_replicate zeroBuf zeroBuf nbuf i hib
        show myhash (binit nbucket nbuf).nbucket (getBuf (binit nbucket nbuf) i).blockno = j
        rw [hz, h0]
        simp [myhash, zeroBuf, binit]
      · rw [if_neg h0] at hi
        simp at hi
    · by_cases h0 : j = 0
      · rw [if_pos h0]
        exact List.nodup_reverse.mpr (List.nodup_range nbuf)
      · rw [if_neg h0]
        exact List.nodup_nil

/-- Local eviction preserves the bucket invariant: the victim is a
member of the bucket the requested block number hashes to, so its new
identity hashes to its bucket. -/
theorem bucketInv_evict (c : BCache) (dev bn v : Nat)
    (hv : v ∈ c.buckets.getD (myhash c.nbucket bn) []) (h : bucketInv c) :
    bucketInv (evictApply c dev bn v) := by
  rcases h with ⟨hlen, hwf, hj⟩
  have hidlt : myhash c.nbucket bn < c.buckets.length := by
    by_contra hge
    rw [getD_of_le ([] : List Nat) c.buckets _ (Nat.le_of_not_lt hge)] at hv
    simp at hv
  refine ⟨hlen, ?_, ?_⟩
  · intro l hl i2 hi2
    have h2 : i2 < c.bufs.length := hwf l hl i2 hi2
    show i2 < (updateBuf c v (fun b => bufinit b dev bn)).bufs.length
    rw [length_updateBuf]
    exact h2
  · intro j hj2
    refine ⟨?_, (hj j hj2).2⟩
    intro i2 hi2
    show myhash c.nbucket (getBuf (evictApply c dev bn v) i2).blockno = j
    rw [getBuf_evictApply]
    by_cases hcond : i2 = v ∧ v < c.bufs.length
    · rw [if_pos hcond]
      rcases hcond with ⟨rfl, _⟩
      show myhash c.nbucket bn = j
      have h1 : myhash c.nbucket (getBuf c i2).blockno = j := (hj j hj2).1 i2 hi2
      have h2 : myhash c.nbucket (getBuf c i2).blockno = myhash c.nbucket bn :=
        (hj _ (List.mem_range.mpr hidlt)).1 i2 hv
      exact h2.symm.trans h1
    · rw [if_neg hcond]
      exact (hj j hj2).1 i2 hi2

/-- The steal path preserves the bucket invariant: the victim is spliced
out of its bucket and pushed onto the bucket its new identity hashes
to; every other membership is untouched. -/
theorem bucketInv_steal (c : BCache) (dev bn i v : Nat)
    (hne : i ≠ myhash c.nbucket bn)
    (hv : v ∈ c.buckets.getD i []) (h : bucketInv c) :
    bucketInv (stealApply c dev bn (myhash c.nbucket bn) i v) := by
  rcases h with ⟨hlen, hwf, hj⟩
  have hvl : v < c.bufs.length := mem_getD_buckets hwf hv
  have hilt : i < c.buckets.length := by
    by_contra hge
    rw [getD_of_le ([] : List Nat) c.buckets _ (Nat.le_of_not_lt hge)] at hv
    simp at hv
  have hnb : 0 < c.nbucket := by
    rw [← hlen]
    exact Nat.lt_of_le_of_lt (Nat.zero_le i) hilt
  have hidlt : myhash c.nbucket bn < c.buckets.length := by
    rw [hlen]
    exact Nat.mod_lt bn hnb
  have hidmem := List.mem_range.mpr hidlt
  have himem := List.mem_range.mpr hilt
  have hvhash : myhash c.nbucket (getBuf c v).blockno = i := (hj i himem).1 v hv
  have hvnotid : v ∉ c.buckets.getD (myhash c.nbucket bn) [] := by
    intro hmem
    exact hne (hvhash.symm.trans ((hj _ hidmem).1 v hmem))
  have hbk : ∀ j, (stealApply c dev bn (myhash c.nbucket bn) i v).buckets.getD j [] =
      if j = myhash c.nbucket bn then v :: c.buckets.getD (myhash c.nbucket bn) []
      else if j = i then removeSlot v (c.buckets.getD i [])
      else c.buckets.getD j [] := by
    intro j
    show ((c.buckets.set i (removeSlot v (c.buckets.getD i []))).set (myhash c.nbucket bn)
      (v :: (c.buckets.set i (removeSlot v (c.buckets.getD i []))).getD
        (myhash c.nbucket bn) [])).getD j [] = _
    have hinner : (c.buckets.set i (removeSlot v (c.buckets.getD i []))).getD
        (myhash c.nbucket bn) [] = c.buckets.getD (myhash c.nbucket bn) [] := by
      rw [getD_set]
      rw [if_neg (fun hcond => hne hcond.1.symm)]
    rw [hinner]
    by_cases h1 : j = myhash c.nbucket bn
    · rw [getD_set, if_pos ⟨h1, by rw [List.length_set]; exact hidlt⟩, if_pos h1]
    · rw [getD_set, if_neg (fun hcond => h1 hcond.1), getD_set]
      by_cases h2 : j = i
      · rw [if_pos ⟨h2, hilt⟩, if_neg h1, if_pos h2]
      · rw [if_neg (fun hcond => h2 hcond.1), if_neg h1, if_neg h2]
  have hslen : (stealApply c dev bn (myhash c.nbucket bn) i v).buckets.length =
      c.buckets.length := by
    show ((c.buckets.set i (removeSlot v (c.buckets.getD i []))).set (myhash c.nbucket bn)
      (v :: (c.buckets.set i (removeSlot v (c.buckets.getD i []))).getD
        (myhash c.nbucket bn) [])).length = _
    rw [List.length_set, List.length_set]
  refine ⟨?_, ?_, ?_⟩
  · rw [hslen, hlen]
    rfl
  · apply wfIndices_of_range
    intro j hj2 i2 hi2
    rw [hbk j] at hi2
    show i2 < (stealApply c dev bn (myhash c.nbucket bn) i v).bufs.length
    have hblen : (stealApply c dev bn (myhash c.nbucket bn) i v).bufs.length =
        c.bufs.length := length_updateBuf c v (fun b => bufinit b dev bn)
    rw [hblen]
    by_cases h1 : j = myhash c.nbucket bn
    · rw [if_pos h1] at hi2
      rcases List.mem_cons.mp hi2 with h2 | h2
      · exact h2 ▸ hvl
      · exact hwf _ (getD_mem [] c.buckets _ hidlt) i2 h2
    · rw [if_neg h1] at hi2
      by_cases h2 : j = i
      · rw [if_pos h2] at hi2
        exact hwf _ (getD_mem [] c.buckets _ hilt) i2 (removeSlot_subset v _ i2 hi2)
      · rw [if_neg h2] at hi2
        by_cases h3 : j < c.buckets.length
        · exact hwf _ (getD_mem [] c.buckets _ h3) i2 hi2
        · rw [getD_of_le ([] : List Nat) c.buckets _ (Nat.le_of_not_lt h3)] at hi2
          simp at hi2
  · intro j hj2
    have hjlt : j < c.buckets.length := by
      have h4 := List.mem_range.mp hj2
      rw [hslen] at h4
      exact h4
    constructor
    · intro i2 hi2
      rw [hbk j] at hi2
      show myhash c.nbucket
        (getBuf (stealApply c dev bn (myhash c.nbucket bn) i v) i2).blockno = j
      rw [getBuf_stealApply]
      by_cases h1 : j = myhash c.nbucket bn
      · rw [if_pos h1] at hi2
        rcases List.mem_cons.mp hi2 with h2 | h2
        · subst h2
          rw [if_pos ⟨rfl, hvl⟩]
          show myhash c.nbucket bn = j
          exact h1.symm
        · have hi2v : i2 ≠ v := fun hh => hvnotid (hh ▸ h2)
          rw [if_neg (fun hcond => hi2v hcond.1)]
          rw [h1]
          exact (hj _ hidmem).1 i2 h2
      · rw [if_neg h1] at hi2
        by_cases h2 : j = i
        · rw [if_pos h2] at hi2
          have hmem := removeSlot_subset v _ i2 hi2
          have hi2v : i2 ≠ v := by
            intro hh
            subst hh
            exact not_mem_removeSlot i2 _ ((hj i himem).2) hi2
          rw [if_neg (fun hcond => hi2v hcond.1)]
          rw [h2]
          exact (hj i himem).1 i2 hmem
        · rw [if_neg h2] at hi2
          have hi2v : i2 ≠ v := by
            intro hh
            subst hh
            have h5 := (hj j (List.mem_range.mpr hjlt)).1 i2 hi2
            exact h2 (h5.symm.trans hvhash)
          rw [if_neg (fun hcond => hi2v hcond.1)]
          exact (hj j (List.mem_range.mpr hjlt)).1 i2 hi2
    · rw [hbk j]
      by_cases h1 : j = myhash c.nbucket bn
      · rw [if_pos h1]
        exact List.nodup_cons.mpr ⟨hvnotid, (hj _ hidmem).2⟩
      · rw [if_neg h1]
        by_cases h2 : j = i
        · rw [if_pos h2]
          exact removeSlot_nodup v _ ((hj i himem).2)
        · rw [if_neg h2]
          by_cases h3 : j < c.buckets.length
          · exact (hj j (List.mem_range.mpr h3)).2
          · rw [getD_of_le ([] : List Nat) c.buckets _ (Nat.le_of_not_lt h3)]
            exact List.nodup_nil

/-- C9: the hash-placement invariant — every bucket member's block
number hashes to its bucket index (with valid, duplicate-free
membership) — is established by binit and preserved by bget (all
branches, the steal splice included), brelse, bpin and bunpin; under it,
the shard index these operations recompute from the slot's block number
is exactly the bucket holding the slot. -/
theorem c9_thm :
    (∀ nbucket nbuf, bucketInv (binit nbucket nbuf)) ∧
    (∀ c dev bn, bucketInv c → bucketInv (bget c dev bn).cache) ∧
    (∀ c i, bucketInv c → bucketInv (brelse c i).cache) ∧
    (∀ c i, bucketInv c → bucketInv (bpin c i).1) ∧
    (∀ c i, bucketInv c → bucketInv (bunpin c i).1) ∧
    (∀ c i j, bucketInv c → j ∈ List.range c.buckets.length →
      i ∈ c.buckets.getD j [] → myhash c.nbucket (getBuf c i).blockno = j) := by
  refine ⟨bucketInv_binit, ?_, ?_, ?_, ?_, ?_⟩
  · intro c dev bn h
    rcases bget_spec c dev bn with ⟨i, hf, hcache, _⟩ | ⟨_, v, hs, hcache, _⟩ |
      ⟨_, hcache⟩ | ⟨i, v, hm, hne, hs, _, hcache⟩
    · rw [hcache]
      have hh : bucketInv (updateBuf c i (fun b => { b with refcnt := b.refcnt + 1 })) :=
        bucketInv_updateBuf c i _ (fun b => rfl) h
      exact hh
    · rw [hcache]
      have hv : v ∈ c.buckets.getD (myhash c.nbucket bn) [] := by
        rcases scanVictim_some c.bufs _ _ _ _ hs with h1 | ⟨hm2, _⟩
        · cases h1
        · exact hm2
      exact bucketInv_evict c dev bn v hv h
    · rw [hcache]
      exact h
    · rw [hcache]
      have hv : v ∈ c.buckets.getD i [] := by
        rcases scanVictim_some c.bufs _ _ _ _ hs with h1 | ⟨hm2, _⟩
        · cases h1
        · exact hm2
      exact bucketInv_steal c dev bn i v hne hv h
  · intro c i h
    by_cases hheld : i ∈ c.held
    · have hc : (brelse c i).cache =
          updateBuf { c with held := removeSlot i c.held } i (fun b =>
            if b.refcnt - 1 = 0 then { b with refcnt := b.refcnt - 1, lastuse := c.ticks }
            else { b with refcnt := b.refcnt - 1 }) := by
        unfold brelse
        rw [if_pos hheld]
      rw [hc]
      refine bucketInv_updateBuf _ i _ ?_ h
      intro b
      by_cases hz : b.refcnt - 1 = 0
      · rw [if_pos hz]
      · rw [if_neg hz]
    · have hc : (brelse c i).cache = c := by
        unfold brelse
        rw [if_neg hheld]
      rw [hc]
      exact h
  · intro c i h
    have hh : bucketInv (updateBuf c i (fun b => { b with refcnt := b.refcnt + 1 })) :=
      bucketInv_updateBuf c i _ (fun b => rfl) h
    exact hh
  · intro c i h
    have hh : bucketInv (updateBuf c i (fun b => { b with refcnt := b.refcnt - 1 })) :=
      bucketInv_updateBuf c i _ (fun b => rfl) h
    exact hh
  · intro c i j h hj hi
    exact (h.2.2 j hj).1 i hi

/-- C9, witness: the invariant holds for a fresh cache and is carried
across a concrete steal-path bget and a concrete brelse. -/
theorem c9_wit :
    bucketInv (binit 2 3) ∧ bucketInv (bget exSteal 1 0).cache ∧
    bucketInv (brelse exUnpin 0).cache := by
  have h := c9_thm
  exact ⟨h.1 2 3, h.2.1 exSteal 1 0 (by decide), h.2.2.1 exUnpin 0 (by decide)⟩

end BufCache
